import Mathlib

/-!
Verification of the needle autograd operator library (`python/needle/ops.py`)
against its specification.

Model: a dense n-dimensional array is a shape (row-major, numpy-style)
together with a lookup function from multi-indices to rational values
(rationals stand for the exact values of the float computations; no
rounding is modelled).  Array-backend primitives (`array_api.*`, i.e.
numpy) are external collaborators and are modelled from their standard
numpy semantics.  Tensor-level operator applications appearing inside
`gradient` methods (which build graphs of further operator applications)
are modelled by their realized values, composing the corresponding
`compute` functions.
-/

namespace Needle

/-- A dense n-dimensional array: a shape and a value for every
(row-major) multi-index.  Entries are rationals. -/
structure NDArray where
  shape : List Nat
  get : List Nat → ℚ

/-- All valid multi-indices of a shape, in row-major (lexicographic) order. -/
def idxList : List Nat → List (List Nat)
  | [] => [[]]
  | d :: ds => (List.range d).flatMap (fun i => (idxList ds).map (fun t => i :: t))

/-- A multi-index is valid for a shape when it has the same rank and is
pointwise below the shape. -/
def validIdx (idx shape : List Nat) : Prop := List.Forall₂ (· < ·) idx shape

/-- The realized (flattened, row-major) contents of an array. -/
def NDArray.realize (a : NDArray) : List ℚ := (idxList a.shape).map a.get

/-- Two arrays realize to the same values: same shape and same flattened
contents. -/
def NDArray.realizeEq (a b : NDArray) : Prop :=
  a.shape = b.shape ∧ a.realize = b.realize

/-! ### Array backend (modelled from numpy semantics) -/

/-- Elementwise map (same shape). -/
def emap (f : ℚ → ℚ) (a : NDArray) : NDArray :=
  ⟨a.shape, fun idx => f (a.get idx)⟩

/-- Combination of two dimensions under numpy broadcasting: equal
dimensions stay, a dimension of size one stretches to the other. -/
def combineDim (d e : Nat) : Nat :=
  if d = e then d else if d = 1 then e else if e = 1 then d else 0

/-- Pad a shape on the left with size-one axes up to rank `r`. -/
def padShape (r : Nat) (s : List Nat) : List Nat :=
  List.replicate (r - s.length) 1 ++ s

/-- The numpy broadcast of two shapes (right-aligned). -/
def broadcastShapes (s t : List Nat) : List Nat :=
  List.zipWith combineDim (padShape (max s.length t.length) s)
    (padShape (max s.length t.length) t)

/-- Map a multi-index of a broadcast result shape back to a multi-index of
an input of shape `s`: keep the trailing `s.length` coordinates, and force
coordinate 0 on stretched (size-one) axes. -/
def bIdx (s idx : List Nat) : List Nat :=
  ((idx.drop (idx.length - s.length)).zip s).map (fun p => if p.2 = 1 then 0 else p.1)

/-- Elementwise binary operation with numpy broadcasting. -/
def ewiseB (f : ℚ → ℚ → ℚ) (a b : NDArray) : NDArray :=
  ⟨broadcastShapes a.shape b.shape,
   fun idx => f (a.get (bIdx a.shape idx)) (b.get (bIdx b.shape idx))⟩

/-- `numpy.ones(s)`. -/
def npOnes (s : List Nat) : NDArray := ⟨s, fun _ => 1⟩

/-- Row-major flat offset of a multi-index in a shape. -/
def ravel : List Nat → List Nat → Nat
  | _ :: ds, i :: t => i * ds.prod + ravel ds t
  | _, _ => 0

/-- Multi-index of a row-major flat offset in a shape. -/
def unravel : List Nat → Nat → List Nat
  | [], _ => []
  | _ :: ds, n => n / ds.prod :: unravel ds (n % ds.prod)

/-- `numpy.reshape` (row-major): the entry at a multi-index of the new
shape is the entry at the same flat offset in the old shape.  Defined on
shapes of equal element count; numpy raises otherwise, which callers
model with an explicit element-count check. -/
def npReshape (a : NDArray) (s : List Nat) : NDArray :=
  ⟨s, fun idx => a.get (unravel a.shape (ravel s idx))⟩

/-- `numpy.broadcast_to`. -/
def npBroadcastTo (a : NDArray) (s : List Nat) : NDArray :=
  ⟨s, fun idx => a.get (bIdx a.shape idx)⟩

/-- Remove the entries of `l` at the positions listed in `axes`
(`i` is the position of the head of `l` in the original list). -/
def removeIdxsAux : List Nat → List Nat → Nat → List Nat
  | [], _, _ => []
  | d :: ds, axes, i =>
    if i ∈ axes then removeIdxsAux ds axes (i + 1)
    else d :: removeIdxsAux ds axes (i + 1)

/-- Remove the entries of `l` at the positions listed in `axes`. -/
def removeIdxs (l axes : List Nat) : List Nat := removeIdxsAux l axes 0

/-- Replace the entries of `l` at the positions listed in `axes` by `1`
(`i` is the position of the head in the original list).  Used only to
reason about products of shapes with removed axes. -/
def maskOnesAux : List Nat → List Nat → Nat → List Nat
  | [], _, _ => []
  | d :: ds, axes, i => (if i ∈ axes then 1 else d) :: maskOnesAux ds axes (i + 1)

/-- `numpy.sum(a, axes)` for a tuple of axes: the output shape drops the
listed axes, and each output entry sums all input entries that restrict
to the given output index.  An empty tuple of axes sums nothing (numpy
returns the array unchanged). -/
def sumAxes (a : NDArray) (axes : List Nat) : NDArray :=
  ⟨removeIdxs a.shape axes,
   fun idx =>
     (((idxList a.shape).filter (fun j => removeIdxs j axes == idx)).map a.get).sum⟩

/-- `numpy.sum(a)` over all axes: a rank-0 (scalar) array. -/
def sumAll (a : NDArray) : NDArray :=
  ⟨[], fun _ => ((idxList a.shape).map a.get).sum⟩

/-- The transposition of `{0, ..., r-1}` exchanging `i` and `j`. -/
def swapFn (i j k : Nat) : Nat := if k = i then j else if k = j then i else k

/-- `numpy.transpose(a, perm)`: output axis `k` is input axis `perm[k]`,
so the input index corresponding to output index `idx` has `idx[perm⁻¹ m]`
at position `m`. -/
def npTranspose (a : NDArray) (perm : List Nat) : NDArray :=
  ⟨perm.map (fun k => a.shape.getD k 0),
   fun idx =>
     a.get ((List.range a.shape.length).map (fun m => idx.getD (perm.indexOf m) 0))⟩

/-- `numpy.matmul` batch part of a shape: everything but the last two axes. -/
def batchShape (s : List Nat) : List Nat := s.take (s.length - 2)

/-- Second-to-last dimension of a shape (matrix row count). -/
def rowsOf (s : List Nat) : Nat := s.getD (s.length - 2) 0

/-- Last dimension of a shape (matrix column count). -/
def colsOf (s : List Nat) : Nat := s.getD (s.length - 1) 0

/-- `numpy.matmul` on stacks of matrices: batch (leading) axes broadcast,
and the last two axes undergo matrix multiplication. -/
def npMatmul (a b : NDArray) : NDArray :=
  ⟨broadcastShapes (batchShape a.shape) (batchShape b.shape)
      ++ [rowsOf a.shape, colsOf b.shape],
   fun idx =>
     ((List.range (colsOf a.shape)).map (fun l =>
        a.get (bIdx (batchShape a.shape) (idx.take (idx.length - 2))
                 ++ [idx.getD (idx.length - 2) 0, l])
          * b.get (bIdx (batchShape b.shape) (idx.take (idx.length - 2))
                 ++ [l, idx.getD (idx.length - 1) 0]))).sum⟩

/-! ### Operators (from `ops.py`); `compute` and `gradient` at value level.
`gradient` receives the realized incoming gradient `og` and the realized
inputs of the node (the graph layer hands a `gradient` method its node,
whose `.inputs` are the operand tensors). -/

/-- `EWiseAdd.compute`: `a + b`. -/
def EWiseAdd.compute (a b : NDArray) : NDArray := ewiseB (· + ·) a b

/-- `EWiseAdd.gradient`: `(out_grad, out_grad)`. -/
def EWiseAdd.gradient (og : NDArray) : NDArray × NDArray := (og, og)

/-- `EWiseMul.compute`: `a * b`. -/
def EWiseMul.compute (a b : NDArray) : NDArray := ewiseB (· * ·) a b

/-- `Negate.compute`: `numpy.negative(a)`. -/
def Negate.compute (a : NDArray) : NDArray := emap (fun x => -x) a

/-- `PowerScalar.compute` with integer exponent `n`: `numpy.power(a, n)`,
elementwise `x ^ n`. -/
def PowerScalar.compute (n : ℤ) (a : NDArray) : NDArray :=
  emap (fun x => x ^ n) a

/-- `PowerScalar.gradient`: the source body is
`raise NotImplementedError()` (a placeholder left between the
solution markers), so no gradient value is ever produced. -/
def PowerScalar.gradient (_og _a : NDArray) : Option NDArray := Option.none

/-- `EWiseDiv.compute`: `a / b`. -/
def EWiseDiv.compute (a b : NDArray) : NDArray := ewiseB (· / ·) a b

/-- `EWiseDiv.gradient`:
`(out_grad / rhs, -out_grad * lhs * (rhs ** -2))`; `-`, `*` and `** -2`
are the tensor operator overloads (Negate, EWiseMul, PowerScalar). -/
def EWiseDiv.gradient (og lhs rhs : NDArray) : NDArray × NDArray :=
  (EWiseDiv.compute og rhs,
   EWiseMul.compute (EWiseMul.compute (Negate.compute og) lhs)
     (PowerScalar.compute (-2) rhs))

/-- `ReLU.compute`: `numpy.maximum(a, 0)`. -/
def ReLU.compute (a : NDArray) : NDArray :=
  ⟨a.shape, fun idx => max (a.get idx) 0⟩

/-- `ReLU.gradient`:
`out_grad * Tensor((x.cached_data > 0).astype(float32))` — the incoming
gradient times the 0/1 mask of strictly positive entries of the forward
input. -/
def ReLU.gradient (og a : NDArray) : NDArray :=
  EWiseMul.compute og ⟨a.shape, fun idx => if 0 < a.get idx then 1 else 0⟩

/-- The axis permutation `Transpose.compute` passes to `numpy.transpose`:
`list(range(rank))` with the two requested positions exchanged (the last
two when no axes are given).  The simultaneous Python assignment
`axes[i], axes[j] = axes[j], axes[i]` reads both old values first. -/
def Transpose.perm (r : Nat) (axes : Option (Nat × Nat)) : List Nat :=
  match axes with
  | Option.none =>
    ((List.range r).set (r - 1) ((List.range r).getD (r - 2) 0)).set (r - 2)
      ((List.range r).getD (r - 1) 0)
  | Option.some (i, j) =>
    ((List.range r).set i ((List.range r).getD j 0)).set j
      ((List.range r).getD i 0)

/-- `Transpose.compute`. -/
def Transpose.compute (axes : Option (Nat × Nat)) (a : NDArray) : NDArray :=
  npTranspose a (Transpose.perm a.shape.length axes)

/-- `Transpose.gradient`: `transpose(out_grad, self.axes)`. -/
def Transpose.gradient (axes : Option (Nat × Nat)) (og : NDArray) : NDArray :=
  Transpose.compute axes og

/-- `Reshape.compute`: `numpy.reshape(a, self.shape)`. -/
def Reshape.compute (s : List Nat) (a : NDArray) : NDArray := npReshape a s

/-- `Reshape.gradient`: `reshape(out_grad, x.shape)` for the input `x`. -/
def Reshape.gradient (og : NDArray) (inS : List Nat) : NDArray := npReshape og inS

/-- `BroadcastTo.compute`: `numpy.broadcast_to(a, self.shape)`. -/
def BroadcastTo.compute (s : List Nat) (a : NDArray) : NDArray := npBroadcastTo a s

/-- The `reduce_dim` loop of `BroadcastTo.gradient`: walk the axes of
`out_grad.shape` from last to first, aligning with the axes of the input
shape from the right; collect every output axis that has run past the
input's rank or whose size differs from the aligned input axis.  Axes are
collected in descending order. -/
def BroadcastTo.reduceDims (inS ogS : List Nat) : List Nat :=
  (List.range ogS.length).reverse.filterMap (fun (o : Nat) =>
    if (o : Int) + (inS.length : Int) - (ogS.length : Int) < 0 then Option.some o
    else if ogS.getD o 0
        ≠ inS.getD ((o : Int) + (inS.length : Int) - (ogS.length : Int)).toNat 0
      then Option.some o
    else Option.none)

/-- `BroadcastTo.gradient`:
`reshape(summation(out_grad, tuple(reduce_dim)), input_shape)`; the
element-count check models `numpy.reshape` raising on a size mismatch. -/
def BroadcastTo.gradient (og : NDArray) (inS : List Nat) : Option NDArray :=
  if (sumAxes og (BroadcastTo.reduceDims inS og.shape)).shape.prod = inS.prod
  then Option.some (npReshape (sumAxes og (BroadcastTo.reduceDims inS og.shape)) inS)
  else Option.none

/-- numpy broadcastability of shape `s` to target shape `t` (the
`broadcast_to` contract): the target has at least the rank of `s`, and
every axis of `s`, aligned from the right, equals the target axis or has
size one. -/
def BCompat (s t : List Nat) : Prop :=
  s.length ≤ t.length
    ∧ ∀ m, m < s.length →
        s.getD m 0 = t.getD (t.length - s.length + m) 0 ∨ s.getD m 0 = 1

/-- The `axes` argument of `summation` as passed from Python: absent, a
bare integer, or a tuple. -/
inductive PyAxes where
  | none
  | int (n : Nat)
  | tuple (l : List Nat)
deriving DecidableEq

/-- `Summation.__init__` normalization:
`if isinstance(self.axes, int): self.axes = (self.axes,)`. -/
def Summation.normAxes : PyAxes → PyAxes
  | .int n => .tuple [n]
  | ax => ax

/-- `Summation.compute`: `numpy.sum(a, self.axes)` on the normalized
axes.  `None` sums all axes to a scalar; a tuple sums the listed axes
(an empty tuple sums nothing).  The `.int` arm is unreachable after
normalization and given the semantics `numpy.sum` would give it. -/
def Summation.compute (axes : PyAxes) (a : NDArray) : NDArray :=
  match Summation.normAxes axes with
  | .none => sumAll a
  | .int n => sumAxes a [n]
  | .tuple l => sumAxes a l

/-- The `sum_shape` of `Summation.gradient`: the input shape with the
reduced axes set to 1.  The Python guard `if self.axes:` is falsy both
for `None` and for an empty tuple, in which case every axis is set to 1. -/
def Summation.sumShape (inS : List Nat) (axes : PyAxes) : List Nat :=
  match Summation.normAxes axes with
  | .none => List.replicate inS.length 1
  | .int n => [n].foldl (fun sh d => sh.set d 1) inS
  | .tuple [] => List.replicate inS.length 1
  | .tuple l => l.foldl (fun sh d => sh.set d 1) inS

/-- `Summation.gradient`:
`reshape(out_grad, sum_shape) * ones(input_shape)` (the multiplication
broadcasts); the element-count check models `numpy.reshape` raising on a
size mismatch. -/
def Summation.gradient (axes : PyAxes) (og : NDArray) (inS : List Nat) :
    Option NDArray :=
  if og.shape.prod = (Summation.sumShape inS axes).prod
  then Option.some
    (ewiseB (· * ·) (npReshape og (Summation.sumShape inS axes)) (npOnes inS))
  else Option.none

/-- Valid `axes` arguments for `Summation` on an input of shape `s`:
absent, a bare in-range axis, or a nonempty tuple of in-range axes.  The
empty tuple is excluded: it is a separate, inconsistently handled case
(`numpy.sum` treats it as "sum nothing" while the Python truthiness test
in `Summation.gradient` treats it as "sum everything"). -/
def Summation.validAxes (s : List Nat) : PyAxes → Prop
  | .none => True
  | .int n => n < s.length
  | .tuple l => l ≠ [] ∧ ∀ d ∈ l, d < s.length

/-- `MatMul.compute`: `numpy.matmul(a, b)`. -/
def MatMul.compute (a b : NDArray) : NDArray := npMatmul a b

/-- `MatMul.gradient`:
`dx = out_grad @ transpose(y)`, `dy = transpose(x) @ out_grad`, then
`if dx.shape != x.shape: dx = summation(dx, tuple(range(len(dx.shape) - len(x.shape))))`
and symmetrically for `dy`. -/
def MatMul.gradient (og a b : NDArray) : NDArray × NDArray :=
  (if (npMatmul og (Transpose.compute Option.none b)).shape ≠ a.shape
   then Summation.compute
     (.tuple (List.range
       ((npMatmul og (Transpose.compute Option.none b)).shape.length - a.shape.length)))
     (npMatmul og (Transpose.compute Option.none b))
   else npMatmul og (Transpose.compute Option.none b),
   if (npMatmul (Transpose.compute Option.none a) og).shape ≠ b.shape
   then Summation.compute
     (.tuple (List.range
       ((npMatmul (Transpose.compute Option.none a) og).shape.length - b.shape.length)))
     (npMatmul (Transpose.compute Option.none a) og)
   else npMatmul (Transpose.compute Option.none a) og)

/-! ### Backward engine

The graph layer and backward engine live in `python/needle/autograd.py`,
which is not among the provided sources; they are modelled from §4.3 of
the specification over an arbitrary additive commutative monoid of
gradient values. -/

/-- Modelled from the spec: a computation-graph node of the Backward
Engine (§4.3; `autograd.py` is not among the provided sources).  Nodes
live in an arena indexed by position; `inputs` lists the operand
positions (empty for a leaf) and `gradFn` is the node's operator
gradient rule, returning one contribution per input from the incoming
gradient.  A well-formed graph has every input at a smaller position, so
decreasing position is a topological order. -/
structure GNode (V : Type) where
  inputs : List Nat
  gradFn : V → List V

/-- Append one gradient contribution to the contribution list of node `j`. -/
def appendAt {V : Type} (c : List (List V)) (j : Nat) (v : V) : List (List V) :=
  c.set j (c.getD j [] ++ [v])

/-- Modelled from the spec: one step of the Backward Engine (§4.3, step 3;
`autograd.py` is not among the provided sources): sum node `i`'s
accumulated contribution list into its gradient and append the operator's
per-input contributions to the input nodes' lists. -/
def propagate {V : Type} [AddCommMonoid V] (g : List (GNode V))
    (c : List (List V)) (i : Nat) : List (List V) :=
  ((g.getD i ⟨[], fun _ => []⟩).inputs.zip
      ((g.getD i ⟨[], fun _ => []⟩).gradFn (c.getD i []).sum)).foldl
    (fun acc p => appendAt acc p.1 p.2) c

/-- Modelled from the spec: the Backward Engine traversal (§4.3;
`autograd.py` is not among the provided sources): seed the root's
contribution list with `seed` and process the nodes in topological order
(decreasing arena position), returning the final contribution lists. -/
def runBackward {V : Type} [AddCommMonoid V] (g : List (GNode V))
    (root : Nat) (seed : V) : List (List V) :=
  (List.range g.length).reverse.foldl (propagate g)
    ((List.range g.length).map (fun i => if i = root then [seed] else []))

/-- The final accumulated gradient (`.grad`) of node `i` after backward. -/
def nodeGrad {V : Type} [AddCommMonoid V] (g : List (GNode V))
    (root : Nat) (seed : V) (i : Nat) : V :=
  ((runBackward g root seed).getD i []).sum

/-- The graph of `h = f(v) + g(v)`: node 0 is the leaf `v`, nodes 1 and 2
apply the unary operators `f` and `g` (with gradient rules `df`, `dg`) to
`v`, and node 3 is `EWiseAdd` of nodes 1 and 2, whose gradient rule
passes `out_grad` through unchanged to both operands (`ops.py`). -/
def graphH {V : Type} (df dg : V → V) : List (GNode V) :=
  [⟨[], fun _ => []⟩,
   ⟨[0], fun og => [df og]⟩,
   ⟨[0], fun og => [dg og]⟩,
   ⟨[1, 2], fun og => [og, og]⟩]

/-- The graph of `f(v)` alone: node 0 is the leaf `v`, node 1 applies the
unary operator `f` (gradient rule `df`) to it. -/
def graphSingle {V : Type} (df : V → V) : List (GNode V) :=
  [⟨[], fun _ => []⟩, ⟨[0], fun og => [df og]⟩]

/-! ## Supporting lemmas -/

theorem mem_idxList {idx s : List Nat} : idx ∈ idxList s ↔ validIdx idx s := by
  induction s generalizing idx with
  | nil =>
    constructor
    · intro h
      simp only [idxList, List.mem_singleton] at h
      subst h
      exact List.Forall₂.nil
    · intro h
      cases h
      simp [idxList]
  | cons d ds ih =>
    constructor
    · intro h
      simp only [idxList, List.mem_flatMap, List.mem_map, List.mem_range] at h
      obtain ⟨i, hi, t, ht, rfl⟩ := h
      exact List.Forall₂.cons hi (ih.mp ht)
    · intro h
      cases h with
      | cons hd htl =>
        simp only [idxList, List.mem_flatMap, List.mem_map, List.mem_range]
        exact ⟨_, hd, _, ih.mpr htl, rfl⟩

theorem validIdx.length_eq {idx s : List Nat} (h : validIdx idx s) :
    idx.length = s.length :=
  List.Forall₂.length_eq h

theorem zipWith_combineDim_self (s : List Nat) :
    List.zipWith combineDim s s = s := by
  induction s with
  | nil => rfl
  | cons d ds ih =>
    simp only [List.zipWith_cons_cons, ih]
    simp [combineDim]

theorem padShape_self (s : List Nat) : padShape s.length s = s := by
  simp [padShape]

theorem broadcastShapes_self (s : List Nat) : broadcastShapes s s = s := by
  simp only [broadcastShapes, max_self, padShape_self]
  exact zipWith_combineDim_self s

theorem bIdx_valid {idx s : List Nat} (h : validIdx idx s) : bIdx s idx = idx := by
  have hl : idx.length = s.length := h.length_eq
  simp only [bIdx, hl, Nat.sub_self, List.drop_zero]
  clear hl
  induction h with
  | nil => rfl
  | cons hd htl ih =>
    rename_i a b l₁ l₂
    simp only [List.zip_cons_cons, List.map_cons, ih]
    congr 1
    by_cases hb : b = 1
    · subst hb
      simp [Nat.lt_one_iff.mp hd]
    · simp [hb]

theorem realizeEq_of_pointwise {a b : NDArray} (hs : a.shape = b.shape)
    (h : ∀ idx, validIdx idx a.shape → a.get idx = b.get idx) :
    a.realizeEq b := by
  refine ⟨hs, ?_⟩
  unfold NDArray.realize
  rw [← hs]
  exact List.map_congr_left (fun idx hm => h idx (mem_idxList.mp hm))

/-! ## Claims -/

/-- C1: `PowerScalar.compute` is elementwise `x ^ n` (here `x = [2, 3]`,
`n = 3` realizes to `[8, 27]`), but the gradient call produces no value:
the source raises `NotImplementedError` instead of returning
`out_grad * n * x^(n-1)`. -/
theorem C1_powerScalar_gradient_unimplemented :
    (PowerScalar.compute 3 ⟨[2], fun idx => if idx = [0] then 2 else 3⟩).realize
        = [8, 27]
      ∧ PowerScalar.gradient ⟨[2], fun _ => 1⟩
          ⟨[2], fun idx => if idx = [0] then 2 else 3⟩ = Option.none := by
  constructor
  · have h2 : idxList [2] = [[0], [1]] := by decide
    simp [PowerScalar.compute, emap, NDArray.realize, h2]
    norm_num
  · rfl

/-- C2: in the graph `h = f(v) + g(v)` the backward pass assigns `v` the
sum of the gradients the two independent single-operator backward passes
assign it, and `v` (consumed by the two downstream operators `f` and `g`)
accumulates exactly two contributions. -/
theorem C2_gradient_accumulation {V : Type} [AddCommMonoid V]
    (df dg : V → V) (s : V) :
    nodeGrad (graphH df dg) 3 s 0
        = nodeGrad (graphSingle df) 1 s 0 + nodeGrad (graphSingle dg) 1 s 0
      ∧ ((runBackward (graphH df dg) 3 s).getD 0 []).length = 2 := by
  constructor
  · simp [nodeGrad, runBackward, propagate, appendAt, graphH, graphSingle,
      List.range_succ]
    abel
  · simp [runBackward, propagate, appendAt, graphH, List.range_succ]

/-- Witness for C2 at `V = ℚ`, `f = 2·`, `g = 3·`, seed 1. -/
theorem C2_gradient_accumulation_witness :
    nodeGrad (graphH (fun x : ℚ => 2 * x) (fun x => 3 * x)) 3 1 0
        = nodeGrad (graphSingle (fun x : ℚ => 2 * x)) 1 1 0
          + nodeGrad (graphSingle (fun x : ℚ => 3 * x)) 1 1 0
      ∧ ((runBackward (graphH (fun x : ℚ => 2 * x) (fun x => 3 * x)) 3 1).getD
          0 []).length = 2 :=
  C2_gradient_accumulation _ _ _

/-- C10: `summation(a, k)` with a bare integer axis behaves identically
to `summation(a, (k,))`: the constructor normalizes the axes argument,
and both the forward reduction and the gradient agree. -/
theorem C10_summation_int_axis_normalized (k : Nat) :
    Summation.normAxes (.int k) = .tuple [k]
      ∧ (∀ a : NDArray,
          Summation.compute (.int k) a = Summation.compute (.tuple [k]) a)
      ∧ (∀ (og : NDArray) (inS : List Nat),
          Summation.gradient (.int k) og inS
            = Summation.gradient (.tuple [k]) og inS) :=
  ⟨rfl, fun _ => rfl, fun _ _ => rfl⟩

/-- C3: `ReLU.compute` is elementwise `max(x, 0)` and `ReLU.gradient` is
`out_grad` where the forward input is strictly positive and `0`
elsewhere, the mask being derived from the forward input; an input entry
equal to `0` yields forward output `0` and gradient contribution `0`. -/
theorem C3_relu_forward_and_gradient (a og : NDArray) (hs : og.shape = a.shape) :
    (ReLU.compute a).shape = a.shape
      ∧ (ReLU.gradient og a).shape = a.shape
      ∧ ∀ idx, validIdx idx a.shape →
          (ReLU.compute a).get idx = max (a.get idx) 0
            ∧ (ReLU.gradient og a).get idx
                = (if 0 < a.get idx then og.get idx else 0)
            ∧ (a.get idx = 0 →
                (ReLU.compute a).get idx = 0 ∧ (ReLU.gradient og a).get idx = 0) := by
  refine ⟨rfl, ?_, ?_⟩
  · simp only [ReLU.gradient, EWiseMul.compute, ewiseB, hs, broadcastShapes_self]
  · intro idx hv
    have hvog : validIdx idx og.shape := by rw [hs]; exact hv
    have hg : (ReLU.gradient og a).get idx
        = og.get idx * (if 0 < a.get idx then 1 else 0) := by
      simp only [ReLU.gradient, EWiseMul.compute, ewiseB]
      rw [bIdx_valid hvog, bIdx_valid hv]
    refine ⟨rfl, ?_, ?_⟩
    · rw [hg]
      by_cases hpos : 0 < a.get idx
      · simp [hpos]
      · simp [hpos]
    · intro h0
      constructor
      · show max (a.get idx) 0 = 0
        simp [h0]
      · rw [hg, h0]
        simp

/-- Witness for C3: `x = [-1, 0]`, `out_grad = [5, 5]`; the forward is
`0` at both entries and the gradient is `0` at the zero entry. -/
theorem C3_relu_witness :
    (ReLU.compute ⟨[2], fun i => if i = [0] then -1 else 0⟩).get [0] = 0
      ∧ (ReLU.gradient ⟨[2], fun _ => 5⟩
          ⟨[2], fun i => if i = [0] then -1 else 0⟩).get [1] = 0 := by
  have h := C3_relu_forward_and_gradient
    ⟨[2], fun i => if i = [0] then -1 else 0⟩ ⟨[2], fun _ => 5⟩ rfl
  have h0 := h.2.2 [0] (List.Forall₂.cons (by norm_num) List.Forall₂.nil)
  have h1 := h.2.2 [1] (List.Forall₂.cons (by norm_num) List.Forall₂.nil)
  constructor
  · rw [h0.1]
    norm_num
  · rw [h1.2.1]
    norm_num

/-- C7: for same-shape operands with elementwise nonzero denominator,
`EWiseDiv.compute` is the elementwise quotient, and the gradient is
`out_grad / rhs` with respect to the numerator and
`-out_grad * lhs / rhs^2` with respect to the denominator. -/
theorem C7_ewisediv_forward_and_gradient (a b og : NDArray)
    (hab : b.shape = a.shape) (hog : og.shape = a.shape)
    (hnz : ∀ idx, validIdx idx a.shape → b.get idx ≠ 0) :
    (EWiseDiv.compute a b).shape = a.shape
      ∧ (EWiseDiv.gradient og a b).1.shape = a.shape
      ∧ (EWiseDiv.gradient og a b).2.shape = a.shape
      ∧ ∀ idx, validIdx idx a.shape →
          (EWiseDiv.compute a b).get idx = a.get idx / b.get idx
            ∧ (EWiseDiv.gradient og a b).1.get idx = og.get idx / b.get idx
            ∧ (EWiseDiv.gradient og a b).2.get idx
                = -og.get idx * a.get idx / b.get idx ^ 2 := by
  have hsd : (EWiseDiv.compute a b).shape = a.shape := by
    simp only [EWiseDiv.compute, ewiseB, hab, broadcastShapes_self]
  refine ⟨hsd, ?_, ?_, ?_⟩
  · simp only [EWiseDiv.gradient, EWiseDiv.compute, ewiseB, hab, hog,
      broadcastShapes_self]
  · simp only [EWiseDiv.gradient, EWiseMul.compute, Negate.compute,
      PowerScalar.compute, emap, ewiseB, hab, hog, broadcastShapes_self]
  · intro idx hv
    have hvb : validIdx idx b.shape := by rw [hab]; exact hv
    have hvog : validIdx idx og.shape := by rw [hog]; exact hv
    refine ⟨?_, ?_, ?_⟩
    · simp only [EWiseDiv.compute, ewiseB]
      rw [bIdx_valid hv, bIdx_valid hvb]
    · simp only [EWiseDiv.gradient, EWiseDiv.compute, ewiseB]
      rw [bIdx_valid hvog, bIdx_valid hvb]
    · have hmask : (EWiseDiv.gradient og a b).2.get idx
          = -og.get idx * a.get idx * b.get idx ^ (-2 : ℤ) := by
        simp only [EWiseDiv.gradient, EWiseMul.compute, Negate.compute,
          PowerScalar.compute, emap, ewiseB, hab, hog, broadcastShapes_self]
        simp [bIdx_valid hv]
      rw [hmask, show ((-2 : ℤ)) = -(2 : ℤ) from rfl, zpow_neg,
        ← div_eq_mul_inv, zpow_two, ← pow_two]

/-- Witness for C7: `lhs = [6]`, `rhs = [2]`, `out_grad = [10]`; the
forward is `[3]` and the two gradients are `[5]` and `[-15]`. -/
theorem C7_ewisediv_witness :
    (EWiseDiv.compute ⟨[1], fun _ => 6⟩ ⟨[1], fun _ => 2⟩).get [0] = 3
      ∧ (EWiseDiv.gradient ⟨[1], fun _ => 10⟩ ⟨[1], fun _ => 6⟩
          ⟨[1], fun _ => 2⟩).1.get [0] = 5
      ∧ (EWiseDiv.gradient ⟨[1], fun _ => 10⟩ ⟨[1], fun _ => 6⟩
          ⟨[1], fun _ => 2⟩).2.get [0] = -15 := by
  have h := C7_ewisediv_forward_and_gradient
    ⟨[1], fun _ => 6⟩ ⟨[1], fun _ => 2⟩ ⟨[1], fun _ => 10⟩ rfl rfl
    (fun _ _ => by norm_num)
  have h0 := h.2.2.2 [0] (List.Forall₂.cons (by norm_num) List.Forall₂.nil)
  refine ⟨?_, ?_, ?_⟩
  · rw [h0.1]
    norm_num
  · rw [h0.2.1]
    norm_num
  · rw [h0.2.2]
    norm_num

theorem ravel_lt {idx s : List Nat} (h : validIdx idx s) : ravel s idx < s.prod := by
  induction h with
  | nil => simp [ravel]
  | cons hd htl ih =>
    rename_i i d idxt st
    simp only [ravel, List.prod_cons]
    have h1 : i * st.prod + ravel st idxt < i * st.prod + st.prod :=
      Nat.add_lt_add_left ih _
    have h2 : i * st.prod + st.prod ≤ d * st.prod := by
      rw [← Nat.succ_mul]
      exact Nat.mul_le_mul_right _ hd
    exact lt_of_lt_of_le h1 h2

theorem ravel_unravel {s : List Nat} {n : Nat} (h : n < s.prod) :
    ravel s (unravel s n) = n := by
  induction s generalizing n with
  | nil =>
    simp only [List.prod_nil] at h
    interval_cases n
    rfl
  | cons d ds ih =>
    simp only [unravel, ravel]
    have hP : 0 < ds.prod := by
      rcases Nat.eq_zero_or_pos ds.prod with h0 | hp
      · rw [List.prod_cons, h0, Nat.mul_zero] at h
        omega
      · exact hp
    rw [ih (Nat.mod_lt _ hP)]
    have hdm := Nat.div_add_mod n ds.prod
    rw [Nat.mul_comm] at hdm
    exact hdm

theorem unravel_ravel {idx s : List Nat} (h : validIdx idx s) :
    unravel s (ravel s idx) = idx := by
  induction h with
  | nil => rfl
  | cons hd htl ih =>
    rename_i i d idxt st
    simp only [ravel, unravel]
    have hr := ravel_lt htl
    have hP : 0 < st.prod := by omega
    have hdiv : (i * st.prod + ravel st idxt) / st.prod = i := by
      rw [Nat.mul_comm, Nat.mul_add_div hP]
      simp [Nat.div_eq_of_lt hr]
    have hmod : (i * st.prod + ravel st idxt) % st.prod = ravel st idxt := by
      rw [Nat.mul_comm, Nat.mul_add_mod]
      exact Nat.mod_eq_of_lt hr
    rw [hdiv, hmod, ih]

/-- C9: for a tensor of shape `shapeA` and any shape `shapeB` of the same
element count, `reshape(reshape(x, shapeB), shapeA)` realizes to the same
values as `x`, and the gradient of `Reshape` is `out_grad` reshaped back
to the original input shape. -/
theorem C9_reshape_round_trip (a : NDArray) (sB : List Nat)
    (hcount : sB.prod = a.shape.prod) :
    (Reshape.compute a.shape (Reshape.compute sB a)).realizeEq a
      ∧ ∀ (og : NDArray) (inS : List Nat),
          Reshape.gradient og inS = npReshape og inS := by
  constructor
  · refine realizeEq_of_pointwise ?_ ?_
    · rfl
    intro idx hv
    have hv' : validIdx idx a.shape := hv
    simp only [Reshape.compute, npReshape]
    have h1 : ravel a.shape idx < sB.prod := by
      rw [hcount]
      exact ravel_lt hv'
    rw [ravel_unravel h1, unravel_ravel hv']
  · intro og inS
    rfl

/-- Witness for C9: a `(2,2)` tensor reshaped to `(4,)` and back realizes
to the same values. -/
theorem C9_reshape_witness :
    (Reshape.compute [2, 2] (Reshape.compute [4]
        ⟨[2, 2], fun i => (i.getD 0 0 : ℚ) + 3 * i.getD 1 0⟩)).realizeEq
      ⟨[2, 2], fun i => (i.getD 0 0 : ℚ) + 3 * i.getD 1 0⟩ :=
  (C9_reshape_round_trip ⟨[2, 2], fun i => (i.getD 0 0 : ℚ) + 3 * i.getD 1 0⟩
    [4] (by decide)).1

theorem swapFn_involutive (i j : Nat) : Function.Involutive (swapFn i j) := by
  intro k
  unfold swapFn
  split_ifs <;> omega

theorem swapFn_lt {r i j k : Nat} (hi : i < r) (hj : j < r) (hk : k < r) :
    swapFn i j k < r := by
  unfold swapFn
  split_ifs <;> omega

theorem getD_range {r m : Nat} (h : m < r) : (List.range r).getD m 0 = m := by
  rw [List.getD_eq_getElem?_getD, List.getElem?_range h]
  rfl

theorem getD_map_range {r w : Nat} {f : Nat → Nat} (h : w < r) :
    ((List.range r).map f).getD w 0 = f w := by
  rw [List.getD_eq_getElem?_getD, List.getElem?_map, List.getElem?_range h]
  rfl

theorem perm_length {r : Nat} {axes : Option (Nat × Nat)} :
    (Transpose.perm r axes).length = r := by
  cases axes with
  | none => simp [Transpose.perm]
  | some p =>
    cases p
    simp [Transpose.perm]

theorem list_ext_getD {l₁ l₂ : List Nat} (hlen : l₁.length = l₂.length)
    (h : ∀ w, w < l₂.length → l₁.getD w 0 = l₂.getD w 0) : l₁ = l₂ := by
  apply List.ext_getElem?
  intro w
  by_cases hw : w < l₂.length
  · have hw1 : w < l₁.length := by omega
    have h1 := h w hw
    rw [List.getD_eq_getElem l₁ 0 hw1, List.getD_eq_getElem l₂ 0 hw] at h1
    rw [List.getElem?_eq_getElem hw1, List.getElem?_eq_getElem hw]
    exact congrArg _ h1
  · rw [List.getElem?_eq_none (by omega), List.getElem?_eq_none (by omega)]

theorem perm_some_eq_map {r i j : Nat} (hi : i < r) (hj : j < r) :
    Transpose.perm r (Option.some (i, j)) = (List.range r).map (swapFn i j) := by
  apply List.ext_getElem?
  intro w
  by_cases hwr : w < r
  · have hrhs : ((List.range r).map (swapFn i j))[w]? = some (swapFn i j w) := by
      rw [List.getElem?_map, List.getElem?_range hwr, Option.map_some']
    rw [hrhs]
    simp only [Transpose.perm, getD_range hi, getD_range hj]
    by_cases hwj : w = j
    · rw [hwj, List.getElem?_set_self
        (by simp only [List.length_set, List.length_range]; exact hj)]
      have h2 : swapFn i j j = i := by
        unfold swapFn
        split_ifs <;> omega
      rw [h2]
    · rw [List.getElem?_set_ne (fun hne => hwj hne.symm)]
      by_cases hwi : w = i
      · rw [hwi, List.getElem?_set_self
          (by simp only [List.length_range]; exact hi)]
        have h2 : swapFn i j i = j := by
          unfold swapFn
          split_ifs <;> omega
        rw [h2]
      · rw [List.getElem?_set_ne (fun hne => hwi hne.symm),
          List.getElem?_range hwr]
        have h2 : swapFn i j w = w := by simp [swapFn, hwi, hwj]
        rw [h2]
  · have h1 : (Transpose.perm r (Option.some (i, j)))[w]? = none := by
      apply List.getElem?_eq_none
      simp only [Transpose.perm, List.length_set, List.length_range]
      omega
    have h2 : ((List.range r).map (swapFn i j))[w]? = none := by
      apply List.getElem?_eq_none
      simp only [List.length_map, List.length_range]
      omega
    rw [h1, h2]

theorem map_range_indexOf {r m : Nat} {f : Nat → Nat}
    (hinv : Function.Involutive f) (hfr : f m < r) (hm : m < r) :
    ((List.range r).map f).indexOf m = f m := by
  have hnd : ((List.range r).map f).Nodup :=
    List.Nodup.map hinv.injective (List.nodup_range r)
  have hlen : ((List.range r).map f).length = r := by simp
  have hget : ((List.range r).map f).get ⟨f m, by omega⟩ = m := by
    simp [List.get_eq_getElem, List.getElem_map, List.getElem_range, hinv m]
  have hio := List.get_indexOf hnd ⟨f m, by omega⟩
  rw [hget] at hio
  exact hio

theorem perm_indexOf {r i j m : Nat} (hi : i < r) (hj : j < r) (hm : m < r) :
    (Transpose.perm r (Option.some (i, j))).indexOf m = swapFn i j m := by
  rw [perm_some_eq_map hi hj]
  exact map_range_indexOf (swapFn_involutive i j) (swapFn_lt hi hj hm) hm

theorem map_getD_range_self {idx : List Nat} {r : Nat} (h : idx.length = r) :
    (List.range r).map (fun m => idx.getD m 0) = idx := by
  apply List.ext_getElem?
  intro w
  by_cases hwr : w < r
  · rw [List.getElem?_map, List.getElem?_range hwr, Option.map_some',
      List.getD_eq_getElem idx 0 (by omega), List.getElem?_eq_getElem (by omega)]
  · have h1 : ((List.range r).map (fun m => idx.getD m 0))[w]? = none := by
      apply List.getElem?_eq_none
      simp only [List.length_map, List.length_range]
      omega
    rw [h1, List.getElem?_eq_none (by omega)]

theorem transpose_shape_len {a : NDArray} {axes : Option (Nat × Nat)} :
    (Transpose.compute axes a).shape.length = a.shape.length := by
  cases axes with
  | none => simp [Transpose.compute, npTranspose, Transpose.perm]
  | some p =>
    cases p
    simp [Transpose.compute, npTranspose, Transpose.perm]

theorem transpose_shape_getD {a : NDArray} {i j w : Nat}
    (hi : i < a.shape.length) (hj : j < a.shape.length)
    (hw : w < a.shape.length) :
    (Transpose.compute (Option.some (i, j)) a).shape.getD w 0
      = a.shape.getD (swapFn i j w) 0 := by
  simp only [Transpose.compute, npTranspose]
  rw [perm_some_eq_map hi hj, List.map_map]
  exact getD_map_range hw

theorem transpose_twice_shape {a : NDArray} {i j : Nat}
    (hi : i < a.shape.length) (hj : j < a.shape.length) :
    (Transpose.compute (Option.some (i, j))
        (Transpose.compute (Option.some (i, j)) a)).shape = a.shape := by
  have hT : (Transpose.compute (Option.some (i, j)) a).shape.length
      = a.shape.length := transpose_shape_len
  apply list_ext_getD
  · rw [transpose_shape_len, transpose_shape_len]
  · intro w hwr
    rw [transpose_shape_getD (hT ▸ hi) (hT ▸ hj) (hT ▸ hwr),
      transpose_shape_getD hi hj (swapFn_lt hi hj hwr), swapFn_involutive]

theorem transpose_twice_get {a : NDArray} {i j : Nat}
    (hi : i < a.shape.length) (hj : j < a.shape.length) (idx : List Nat)
    (hlen : idx.length = a.shape.length) :
    (Transpose.compute (Option.some (i, j))
        (Transpose.compute (Option.some (i, j)) a)).get idx = a.get idx := by
  simp only [Transpose.compute, npTranspose, List.length_map, perm_length]
  congr 1
  refine Eq.trans (List.map_congr_left ?_) (map_getD_range_self hlen)
  intro m hm
  have hmr : m < a.shape.length := List.mem_range.mp hm
  rw [perm_indexOf hi hj hmr, getD_map_range (swapFn_lt hi hj hmr),
    perm_indexOf hi hj (swapFn_lt hi hj hmr), swapFn_involutive]

/-- C8: `transpose(transpose(x, (i,j)), (i,j))` realizes to the same
values as `x` for any valid axis pair; omitted axes mean the last two
axes; and the gradient of `Transpose` is `out_grad` transposed by the
same axis pair. -/
theorem C8_transpose_involution (a : NDArray) (i j : Nat)
    (hi : i < a.shape.length) (hj : j < a.shape.length) :
    (Transpose.compute (Option.some (i, j))
        (Transpose.compute (Option.some (i, j)) a)).realizeEq a
      ∧ (2 ≤ a.shape.length →
          Transpose.compute Option.none a
            = Transpose.compute
                (Option.some (a.shape.length - 2, a.shape.length - 1)) a)
      ∧ ∀ (axes : Option (Nat × Nat)) (og : NDArray),
          Transpose.gradient axes og = Transpose.compute axes og := by
  refine ⟨?_, ?_, fun _ _ => rfl⟩
  · refine realizeEq_of_pointwise (transpose_twice_shape hi hj) ?_
    intro idx hv
    have hlen : idx.length = a.shape.length := by
      have h1 := hv.length_eq
      rwa [transpose_shape_len, transpose_shape_len] at h1
    exact transpose_twice_get hi hj idx hlen
  · intro hr
    have hperm : Transpose.perm a.shape.length Option.none
        = Transpose.perm a.shape.length
            (Option.some (a.shape.length - 2, a.shape.length - 1)) := by
      simp only [Transpose.perm]
      rw [List.set_comm _ _ _ (by omega)]
    simp only [Transpose.compute, hperm]

/-- Witness for C8: the `(2,3)` tensor with entries `10·i + j` transposed
twice along axes `(0,1)` realizes back to itself. -/
theorem C8_transpose_witness :
    (Transpose.compute (Option.some (0, 1)) (Transpose.compute (Option.some (0, 1))
        ⟨[2, 3], fun idx => (idx.getD 0 0 : ℚ) * 10 + idx.getD 1 0⟩)).realizeEq
      ⟨[2, 3], fun idx => (idx.getD 0 0 : ℚ) * 10 + idx.getD 1 0⟩ :=
  (C8_transpose_involution ⟨[2, 3], fun idx => (idx.getD 0 0 : ℚ) * 10 + idx.getD 1 0⟩
    0 1 (by decide) (by decide)).1

theorem getD_set {s : List Nat} {d w v : Nat} :
    (s.set d v).getD w 0 = if d = w ∧ w < s.length then v else s.getD w 0 := by
  by_cases h : d = w ∧ w < s.length
  · obtain ⟨rfl, hlt⟩ := h
    rw [if_pos ⟨rfl, hlt⟩, List.getD_eq_getElem?_getD,
      List.getElem?_set_self hlt, Option.getD_some]
  · rw [if_neg h, List.getD_eq_getElem?_getD, List.getD_eq_getElem?_getD]
    by_cases hd : d = w
    · subst hd
      have hge : s.length ≤ d := by
        by_contra hc
        exact h ⟨rfl, by omega⟩
      rw [List.getElem?_eq_none (by simpa using hge),
        List.getElem?_eq_none hge]
    · rw [List.getElem?_set_ne hd]

theorem foldl_set_length (axes s : List Nat) :
    (axes.foldl (fun sh d => sh.set d 1) s).length = s.length := by
  induction axes generalizing s with
  | nil => rfl
  | cons d ds ih =>
    simp only [List.foldl_cons]
    rw [ih, List.length_set]

theorem foldl_set_getD (axes s : List Nat) (w : Nat) :
    (axes.foldl (fun sh d => sh.set d 1) s).getD w 0
      = if w ∈ axes ∧ w < s.length then 1 else s.getD w 0 := by
  induction axes generalizing s with
  | nil => simp
  | cons d ds ih =>
    simp only [List.foldl_cons]
    rw [ih, List.length_set, getD_set]
    split_ifs <;> simp_all [List.mem_cons]

theorem maskOnesAux_length (l A : List Nat) (i : Nat) :
    (maskOnesAux l A i).length = l.length := by
  induction l generalizing i with
  | nil => rfl
  | cons d ds ih => simp [maskOnesAux, ih]

theorem maskOnesAux_getD (l A : List Nat) (i w : Nat) (hw : w < l.length) :
    (maskOnesAux l A i).getD w 0
      = if (i + w) ∈ A then 1 else l.getD w 0 := by
  induction l generalizing i w with
  | nil => simp at hw
  | cons d ds ih =>
    cases w with
    | zero => simp [maskOnesAux]
    | succ w' =>
      simp only [maskOnesAux, List.getD_cons_succ]
      rw [ih _ _ (by simpa using hw)]
      have harith : i + 1 + w' = i + (w' + 1) := by omega
      rw [harith]

theorem removeIdxsAux_prod (l A : List Nat) (i : Nat) :
    (removeIdxsAux l A i).prod = (maskOnesAux l A i).prod := by
  induction l generalizing i with
  | nil => rfl
  | cons d ds ih =>
    simp only [removeIdxsAux, maskOnesAux]
    by_cases h : i ∈ A
    · rw [if_pos h, if_pos h, List.prod_cons, ih, one_mul]
    · rw [if_neg h, if_neg h, List.prod_cons, List.prod_cons, ih]

theorem sumShape_tuple_eq_mask (s l : List Nat) (hl : l ≠ []) :
    Summation.sumShape s (.tuple l) = maskOnesAux s l 0 := by
  have hred : Summation.sumShape s (.tuple l)
      = l.foldl (fun sh d => sh.set d 1) s := by
    cases l with
    | nil => exact absurd rfl hl
    | cons x xs => rfl
  rw [hred]
  apply list_ext_getD
  · rw [foldl_set_length, maskOnesAux_length]
  · intro w hw
    have hw' : w < s.length := by
      rwa [maskOnesAux_length] at hw
    rw [foldl_set_getD, maskOnesAux_getD _ _ _ _ hw', Nat.zero_add]
    simp [hw']

theorem forall₂_of_getD {P : Nat → Nat → Prop} {l₁ l₂ : List Nat}
    (hlen : l₁.length = l₂.length)
    (h : ∀ w, w < l₂.length → P (l₁.getD w 0) (l₂.getD w 0)) :
    List.Forall₂ P l₁ l₂ := by
  induction l₂ generalizing l₁ with
  | nil =>
    cases l₁ with
    | nil => exact List.Forall₂.nil
    | cons a as => simp at hlen
  | cons b bs ih =>
    cases l₁ with
    | nil => simp at hlen
    | cons a as =>
      refine List.Forall₂.cons ?_ (ih (by simpa using hlen) ?_)
      · have h0 := h 0 (by simp)
        simpa using h0
      · intro w hw
        have hs := h (w + 1) (by simpa using Nat.succ_lt_succ hw)
        simpa using hs

theorem zipWith_combineDim_left_one {l₁ l₂ : List Nat}
    (h : List.Forall₂ (fun x y => x = 1 ∨ x = y) l₁ l₂) :
    List.zipWith combineDim l₁ l₂ = l₂ := by
  induction h with
  | nil => rfl
  | cons hp htl ih =>
    rename_i x y xs ys
    simp only [List.zipWith_cons_cons, ih]
    congr 1
    rcases hp with h1 | h2
    · subst h1
      by_cases hy : y = 1
      · simp [combineDim, hy]
      · simp [combineDim, hy]
    · subst h2
      simp [combineDim]

theorem broadcastShapes_eq_right {l₁ l₂ : List Nat}
    (hlen : l₁.length = l₂.length)
    (h : List.Forall₂ (fun x y => x = 1 ∨ x = y) l₁ l₂) :
    broadcastShapes l₁ l₂ = l₂ := by
  have h1 : padShape (max l₁.length l₂.length) l₁ = l₁ := by
    simp [padShape, hlen]
  have h2 : padShape (max l₁.length l₂.length) l₂ = l₂ := by
    simp [padShape, hlen]
  simp only [broadcastShapes]
  rw [h1, h2]
  exact zipWith_combineDim_left_one h

theorem sumShape_length (s : List Nat) (axes : PyAxes) :
    (Summation.sumShape s axes).length = s.length := by
  cases axes with
  | none =>
    show (List.replicate s.length 1).length = s.length
    simp
  | int n =>
    show ([n].foldl (fun sh d => sh.set d 1) s).length = s.length
    rw [foldl_set_length]
  | tuple l =>
    cases l with
    | nil =>
      show (List.replicate s.length 1).length = s.length
      simp
    | cons x xs =>
      show ((x :: xs).foldl (fun sh d => sh.set d 1) s).length = s.length
      rw [foldl_set_length]

theorem sumShape_one_or_eq (s : List Nat) (axes : PyAxes) (w : Nat)
    (hw : w < s.length) :
    (Summation.sumShape s axes).getD w 0 = 1
      ∨ (Summation.sumShape s axes).getD w 0 = s.getD w 0 := by
  cases axes with
  | none =>
    left
    show (List.replicate s.length 1).getD w 0 = 1
    rw [List.getD_eq_getElem?_getD, List.getElem?_eq_getElem (by simpa using hw)]
    simp
  | int n =>
    have hred : Summation.sumShape s (.int n)
        = [n].foldl (fun sh d => sh.set d 1) s := rfl
    rw [hred, foldl_set_getD]
    by_cases h : w ∈ [n] ∧ w < s.length
    · left
      rw [if_pos h]
    · right
      rw [if_neg h]
  | tuple l =>
    cases l with
    | nil =>
      left
      show (List.replicate s.length 1).getD w 0 = 1
      rw [List.getD_eq_getElem?_getD, List.getElem?_eq_getElem (by simpa using hw)]
      simp
    | cons x xs =>
      have hred : Summation.sumShape s (.tuple (x :: xs))
          = (x :: xs).foldl (fun sh d => sh.set d 1) s := rfl
      rw [hred, foldl_set_getD]
      by_cases h : w ∈ x :: xs ∧ w < s.length
      · left
        rw [if_pos h]
      · right
        rw [if_neg h]

/-- C5 (amended): for `axes` absent, a bare in-range axis, or a nonempty
tuple of in-range axes, and `out_grad` of the forward output's shape,
`Summation.gradient` succeeds (reshaping `out_grad` to the input shape
with reduced axes set to 1, then broadcasting) and the returned gradient
has the shape of the input. -/
theorem C5_summation_gradient_shape (a og : NDArray) (axes : PyAxes)
    (hval : Summation.validAxes a.shape axes)
    (hog : og.shape = (Summation.compute axes a).shape) :
    ∃ gr, Summation.gradient axes og a.shape = Option.some gr
      ∧ gr.shape = a.shape := by
  have hprod : og.shape.prod = (Summation.sumShape a.shape axes).prod := by
    cases axes with
    | none =>
      have hcs : (Summation.compute PyAxes.none a).shape = [] := rfl
      have hss : Summation.sumShape a.shape PyAxes.none
          = List.replicate a.shape.length 1 := rfl
      rw [hog, hcs, hss, List.prod_replicate, List.prod_nil, one_pow]
    | int n =>
      have hcs : (Summation.compute (PyAxes.int n) a).shape
          = removeIdxs a.shape [n] := rfl
      have hss : Summation.sumShape a.shape (PyAxes.int n)
          = Summation.sumShape a.shape (PyAxes.tuple [n]) := rfl
      rw [hog, hcs, hss, sumShape_tuple_eq_mask a.shape [n] (by simp)]
      exact removeIdxsAux_prod a.shape [n] 0
    | tuple l =>
      have hl : l ≠ [] := hval.1
      have hcs : (Summation.compute (PyAxes.tuple l) a).shape
          = removeIdxs a.shape l := rfl
      rw [hog, hcs, sumShape_tuple_eq_mask a.shape l hl]
      exact removeIdxsAux_prod a.shape l 0
  refine ⟨ewiseB (· * ·) (npReshape og (Summation.sumShape a.shape axes))
    (npOnes a.shape), ?_, ?_⟩
  · simp only [Summation.gradient]
    rw [if_pos hprod]
  · show broadcastShapes (Summation.sumShape a.shape axes) a.shape = a.shape
    apply broadcastShapes_eq_right (sumShape_length a.shape axes)
    apply forall₂_of_getD (sumShape_length a.shape axes)
    intro w hw
    exact sumShape_one_or_eq a.shape axes w hw

/-- Witness for C5: input shape `(2,3)`, `axes = (1,)`, `out_grad` of
shape `(2,)`. -/
theorem C5_summation_gradient_witness :
    ∃ gr, Summation.gradient (.tuple [1]) ⟨[2], fun _ => 3⟩ [2, 3]
        = Option.some gr ∧ gr.shape = [2, 3] :=
  C5_summation_gradient_shape ⟨[2, 3], fun _ => 1⟩ ⟨[2], fun _ => 3⟩
    (.tuple [1]) ⟨by decide, by decide⟩ rfl

/-- C5 counterexample: with an empty tuple of axes the forward reduction
is the identity (shape `(2,)` for a `(2,)` input), but the gradient call
reshapes `out_grad` to the all-ones shape `(1,)` — an invalid reshape of
2 elements into 1, on which `numpy.reshape` raises — so no gradient of
the input's shape is returned. -/
theorem C5_summation_gradient_empty_tuple_fails :
    (Summation.compute (.tuple []) ⟨[2], fun _ => 1⟩).shape = [2]
      ∧ Summation.sumShape [2] (.tuple []) = [1]
      ∧ Summation.gradient (.tuple []) ⟨[2], fun _ => 1⟩ [2] = Option.none :=
  ⟨rfl, rfl, rfl⟩

theorem getD_drop {l : List Nat} {k m : Nat} :
    (l.drop k).getD m 0 = l.getD (k + m) 0 := by
  rw [List.getD_eq_getElem?_getD, List.getD_eq_getElem?_getD,
    List.getElem?_drop]

theorem mem_reduceDims {inS t : List Nat} {o : Nat} :
    o ∈ BroadcastTo.reduceDims inS t
      ↔ o < t.length
        ∧ ((o : Int) + inS.length - t.length < 0
            ∨ t.getD o 0
                ≠ inS.getD ((o : Int) + inS.length - t.length).toNat 0) := by
  simp only [BroadcastTo.reduceDims, List.mem_filterMap, List.mem_reverse,
    List.mem_range]
  constructor
  · rintro ⟨x, hx, hfx⟩
    split_ifs at hfx with h1 h2
    · obtain rfl := Option.some.inj hfx
      exact ⟨hx, Or.inl h1⟩
    · obtain rfl := Option.some.inj hfx
      exact ⟨hx, Or.inr h2⟩
  · rintro ⟨ho, hcond⟩
    refine ⟨o, ho, ?_⟩
    by_cases h1 : (o : Int) + inS.length - t.length < 0
    · rw [if_pos h1]
    · rcases hcond with hc | hc
      · exact absurd hc h1
      · rw [if_neg h1, if_pos hc]

theorem maskOnesAux_prod_drop {A : List Nat} (u : List Nat) (i c : Nat)
    (hc : c ≤ u.length) (hmem : ∀ m, m < c → (i + m) ∈ A) :
    (maskOnesAux u A i).prod = (maskOnesAux (u.drop c) A (i + c)).prod := by
  induction c generalizing u i with
  | zero => simp
  | succ c' ih =>
    cases u with
    | nil => simp at hc
    | cons d ds =>
      have h0 : i ∈ A := by
        have h00 := hmem 0 (by omega)
        simpa using h00
      simp only [maskOnesAux, if_pos h0, List.prod_cons, one_mul,
        List.drop_succ_cons]
      have hmem' : ∀ m, m < c' → (i + 1 + m) ∈ A := by
        intro m hm
        have h2 := hmem (m + 1) (by omega)
        have harith : i + 1 + m = i + (m + 1) := by omega
        rw [harith]
        exact h2
      rw [ih ds (i + 1) (by simpa using hc) hmem']
      have harith : i + 1 + c' = i + (c' + 1) := by omega
      rw [harith]

theorem maskOnesAux_prod_eq {A : List Nat} (u v : List Nat) (i : Nat)
    (hlen : u.length = v.length)
    (hmem : ∀ m, m < u.length → ((i + m) ∈ A ↔ u.getD m 0 ≠ v.getD m 0))
    (hcompat : ∀ m, m < u.length → u.getD m 0 ≠ v.getD m 0 → v.getD m 0 = 1) :
    (maskOnesAux u A i).prod = v.prod := by
  induction u generalizing v i with
  | nil =>
    cases v with
    | nil => rfl
    | cons e es => simp at hlen
  | cons d ds =>
    rename_i ih
    cases v with
    | nil => simp at hlen
    | cons e es =>
      have hmem' : ∀ m, m < ds.length →
          ((i + 1 + m) ∈ A ↔ ds.getD m 0 ≠ es.getD m 0) := by
        intro m hm
        have h2 := hmem (m + 1) (by simpa using Nat.succ_lt_succ hm)
        have harith : i + 1 + m = i + (m + 1) := by omega
        rw [harith]
        simpa using h2
      have hcompat' : ∀ m, m < ds.length →
          ds.getD m 0 ≠ es.getD m 0 → es.getD m 0 = 1 := by
        intro m hm hne
        have h2 := hcompat (m + 1) (by simpa using Nat.succ_lt_succ hm)
        simp only [List.getD_cons_succ] at h2
        exact h2 hne
      have hrec := ih es (i + 1) (by simpa using hlen) hmem' hcompat'
      simp only [maskOnesAux, List.prod_cons]
      by_cases hde : d = e
      · have hni : i ∉ A := by
          have h0 := hmem 0 (by simp)
          simp only [Nat.add_zero, List.getD_cons_zero] at h0
          rw [h0]
          simp [hde]
        rw [if_neg hni, hde, hrec]
      · have hm0 : i ∈ A := by
          have h0 := hmem 0 (by simp)
          simp only [Nat.add_zero, List.getD_cons_zero] at h0
          rw [h0]
          simpa using hde
        have he1 : e = 1 := by
          have h0 := hcompat 0 (by simp) (by simpa using hde)
          simpa using h0
        rw [if_pos hm0, he1, one_mul, one_mul, hrec]

theorem reduceDims_prod {s t : List Nat} (hc : BCompat s t) :
    (removeIdxs t (BroadcastTo.reduceDims s t)).prod = s.prod := by
  have hk : s.length ≤ t.length := hc.1
  rw [removeIdxs, removeIdxsAux_prod]
  rw [maskOnesAux_prod_drop t 0 (t.length - s.length) (by omega) ?lead]
  case lead =>
    intro m hm
    rw [mem_reduceDims]
    constructor
    · omega
    · left
      omega
  rw [Nat.zero_add]
  apply maskOnesAux_prod_eq
  · rw [List.length_drop]
    omega
  · intro m hm
    have hml : m < s.length := by
      rw [List.length_drop] at hm
      omega
    rw [mem_reduceDims, getD_drop]
    have htn : ((((t.length - s.length + m) : Nat) : Int) + s.length
        - t.length).toNat = m := by omega
    have hge : ¬(((((t.length - s.length + m) : Nat) : Int)) + s.length
        - t.length < 0) := by omega
    rw [htn]
    constructor
    · rintro ⟨_, hcond⟩
      rcases hcond with hcond | hcond
      · exact absurd hcond hge
      · exact hcond
    · intro hne
      exact ⟨by omega, Or.inr hne⟩
  · intro m hm hne
    have hml : m < s.length := by
      rw [List.length_drop] at hm
      omega
    rcases hc.2 m hml with heq | h1
    · rw [getD_drop] at hne
      exact absurd heq.symm hne
    · exact h1

/-- C4: for an input broadcastable to a target shape `t` and `out_grad`
of shape `t`, the axes `BroadcastTo.gradient` sums over are exactly the
broadcast axes (newly introduced leading axes, and size-1 axes expanded
to a different size), and the gradient is a valid reshape with the
original input shape.  In particular, broadcasting a `(3,1)` tensor to
`(3,4)`, summing all elements and running backward (seed 1) yields a
gradient of shape `(3,1)` with every entry 4. -/
theorem C4_broadcastTo_gradient (a og : NDArray) (t : List Nat)
    (hc : BCompat a.shape t) (hog : og.shape = t) :
    (∀ o, o ∈ BroadcastTo.reduceDims a.shape t
        ↔ o < t.length
          ∧ (o < t.length - a.shape.length
              ∨ (a.shape.getD (o - (t.length - a.shape.length)) 0 = 1
                  ∧ t.getD o 0
                      ≠ a.shape.getD (o - (t.length - a.shape.length)) 0)))
      ∧ (∃ gr, BroadcastTo.gradient og a.shape = Option.some gr
          ∧ gr.shape = a.shape)
      ∧ (∃ g1 g2,
          Summation.gradient PyAxes.none ⟨[], fun _ => 1⟩ [3, 4]
              = Option.some g1
            ∧ BroadcastTo.gradient g1 [3, 1] = Option.some g2
            ∧ g2.shape = [3, 1] ∧ g2.realize = [4, 4, 4]) := by
  refine ⟨?_, ?_, ?_⟩
  · intro o
    rw [mem_reduceDims]
    apply and_congr_right
    intro ho
    have hsl : a.shape.length ≤ t.length := hc.1
    by_cases hok : o < t.length - a.shape.length
    · constructor
      · intro _
        exact Or.inl hok
      · intro _
        left
        omega
    · have htn : ((o : Int) + a.shape.length - t.length).toNat
          = o - (t.length - a.shape.length) := by omega
      have hnneg : ¬((o : Int) + a.shape.length - t.length < 0) := by omega
      rw [htn]
      have hmlt : o - (t.length - a.shape.length) < a.shape.length := by omega
      have hcm := hc.2 (o - (t.length - a.shape.length)) hmlt
      have harith : t.length - a.shape.length
          + (o - (t.length - a.shape.length)) = o := by omega
      rw [harith] at hcm
      constructor
      · intro hx
        rcases hx with hx | hx
        · exact absurd hx hnneg
        · right
          rcases hcm with hcm | hcm
          · exact absurd hcm.symm hx
          · exact ⟨hcm, hx⟩
      · intro hy
        rcases hy with hy | hy
        · omega
        · exact Or.inr hy.2
  · have hprod : (sumAxes og (BroadcastTo.reduceDims a.shape og.shape)).shape.prod
        = a.shape.prod := by
      show (removeIdxs og.shape (BroadcastTo.reduceDims a.shape og.shape)).prod
        = a.shape.prod
      rw [hog]
      exact reduceDims_prod hc
    refine ⟨npReshape (sumAxes og (BroadcastTo.reduceDims a.shape og.shape))
      a.shape, ?_, rfl⟩
    simp only [BroadcastTo.gradient]
    rw [if_pos hprod]
  · refine ⟨ewiseB (· * ·) (npReshape ⟨[], fun _ => 1⟩ [1, 1]) (npOnes [3, 4]),
      npReshape (sumAxes (ewiseB (· * ·) (npReshape ⟨[], fun _ => 1⟩ [1, 1])
        (npOnes [3, 4])) [1]) [3, 1], rfl, rfl, rfl, ?_⟩
    have hidx : idxList [3, 1] = [[0, 0], [1, 0], [2, 0]] := by decide
    have h0 : (idxList [3, 4]).filter (fun j => removeIdxs j [1] == [0])
        = [[0, 0], [0, 1], [0, 2], [0, 3]] := by decide
    have h1 : (idxList [3, 4]).filter (fun j => removeIdxs j [1] == [1])
        = [[1, 0], [1, 1], [1, 2], [1, 3]] := by decide
    have h2 : (idxList [3, 4]).filter (fun j => removeIdxs j [1] == [2])
        = [[2, 0], [2, 1], [2, 2], [2, 3]] := by decide
    show (idxList [3, 1]).map
        (npReshape (sumAxes (ewiseB (· * ·) (npReshape ⟨[], fun _ => 1⟩ [1, 1])
          (npOnes [3, 4])) [1]) [3, 1]).get = [4, 4, 4]
    rw [hidx]
    simp only [List.map_cons, List.map_nil]
    show [(((idxList [3, 4]).filter (fun j => removeIdxs j [1] == [0])).map
        (ewiseB (· * ·) (npReshape ⟨[], fun _ => 1⟩ [1, 1])
          (npOnes [3, 4])).get).sum,
      (((idxList [3, 4]).filter (fun j => removeIdxs j [1] == [1])).map
        (ewiseB (· * ·) (npReshape ⟨[], fun _ => 1⟩ [1, 1])
          (npOnes [3, 4])).get).sum,
      (((idxList [3, 4]).filter (fun j => removeIdxs j [1] == [2])).map
        (ewiseB (· * ·) (npReshape ⟨[], fun _ => 1⟩ [1, 1])
          (npOnes [3, 4])).get).sum] = [4, 4, 4]
    rw [h0, h1, h2]
    norm_num [ewiseB, npReshape, npOnes]

/-- Witness for C4: a `(3,1)` input broadcast to `(3,4)` with an all-ones
`out_grad` of shape `(3,4)` yields a gradient of shape `(3,1)`. -/
theorem C4_broadcastTo_witness :
    ∃ gr, BroadcastTo.gradient ⟨[3, 4], fun _ => 1⟩ [3, 1] = Option.some gr
      ∧ gr.shape = [3, 1] :=
  (C4_broadcastTo_gradient ⟨[3, 1], fun _ => 1⟩ ⟨[3, 4], fun _ => 1⟩ [3, 4]
    ⟨by decide, fun m hm => by
      have h2 : m < 2 := by simpa using hm
      interval_cases m <;> decide⟩ rfl).2.1

theorem batchShape_append (x : List Nat) (p q : Nat) :
    batchShape (x ++ [p, q]) = x := by
  unfold batchShape
  have hlen : (x ++ [p, q]).length - 2 = x.length := by simp
  rw [hlen]
  exact List.take_left x [p, q]

theorem getD_append_right2 {x l : List Nat} {w : Nat} (h : x.length ≤ w) :
    (x ++ l).getD w 0 = l.getD (w - x.length) 0 := by
  rw [List.getD_eq_getElem?_getD, List.getElem?_append_right h,
    List.getD_eq_getElem?_getD]

theorem rowsOf_append (x : List Nat) (p q : Nat) : rowsOf (x ++ [p, q]) = p := by
  unfold rowsOf
  have hlen : (x ++ [p, q]).length - 2 = x.length := by simp
  rw [hlen, getD_append_right2 (Nat.le_refl _), Nat.sub_self]
  rfl

theorem colsOf_append (x : List Nat) (p q : Nat) : colsOf (x ++ [p, q]) = q := by
  unfold colsOf
  have hlen : (x ++ [p, q]).length - 1 = x.length + 1 := by simp
  rw [hlen, getD_append_right2 (by omega)]
  have h1 : x.length + 1 - x.length = 1 := by omega
  rw [h1]
  rfl

theorem transpose_default_shape {b : NDArray} {tb : List Nat} {k n : Nat}
    (hb : b.shape = tb ++ [k, n]) :
    (Transpose.compute Option.none b).shape = tb ++ [n, k] := by
  have hr : b.shape.length = tb.length + 2 := by
    rw [hb]
    simp
  have hperm : Transpose.perm b.shape.length Option.none
      = Transpose.perm b.shape.length
          (Option.some (b.shape.length - 2, b.shape.length - 1)) := by
    simp only [Transpose.perm]
    rw [List.set_comm _ _ _ (by omega)]
  show ((Transpose.perm b.shape.length Option.none).map
    (fun w => b.shape.getD w 0)) = tb ++ [n, k]
  rw [hperm, perm_some_eq_map (by omega) (by omega), List.map_map]
  apply list_ext_getD
  · simp [hr]
  · intro w hw
    have hwlen : w < tb.length + 2 := by
      simpa using hw
    have hw2 : w < b.shape.length := by omega
    rw [getD_map_range hw2]
    show b.shape.getD (swapFn (b.shape.length - 2) (b.shape.length - 1) w) 0
      = (tb ++ [n, k]).getD w 0
    by_cases hw0 : w < tb.length
    · have hs : swapFn (b.shape.length - 2) (b.shape.length - 1) w = w := by
        unfold swapFn
        split_ifs <;> omega
      rw [hs, hb, List.getD_append _ _ _ _ (by omega),
        List.getD_append _ _ _ _ (by omega)]
    · by_cases hw1 : w = tb.length
      · have hs : swapFn (b.shape.length - 2) (b.shape.length - 1) w
            = tb.length + 1 := by
          unfold swapFn
          split_ifs <;> omega
        rw [hs, hb, getD_append_right2 (by omega), getD_append_right2 (by omega)]
        have e1 : tb.length + 1 - tb.length = 1 := by omega
        have e2 : w - tb.length = 0 := by omega
        rw [e1, e2]
        rfl
      · have hw2' : w = tb.length + 1 := by omega
        have hs : swapFn (b.shape.length - 2) (b.shape.length - 1) w
            = tb.length := by
          unfold swapFn
          split_ifs <;> omega
        rw [hs, hb, getD_append_right2 (by omega), getD_append_right2 (by omega)]
        have e1 : tb.length - tb.length = 0 := by omega
        have e2 : w - tb.length = 1 := by omega
        rw [e1, e2]
        rfl

theorem broadcastShapes_length (s t : List Nat) :
    (broadcastShapes s t).length = max s.length t.length := by
  have h1 : (padShape (max s.length t.length) s).length
      = max s.length t.length := by
    simp only [padShape, List.length_append, List.length_replicate]
    omega
  have h2 : (padShape (max s.length t.length) t).length
      = max s.length t.length := by
    simp only [padShape, List.length_append, List.length_replicate]
    omega
  simp only [broadcastShapes, List.length_zipWith, h1, h2, min_self]

theorem zipWith_combineDim_right_replicate (l : List Nat) :
    List.zipWith combineDim l (List.replicate l.length 1) = l := by
  induction l with
  | nil => rfl
  | cons d ds ih =>
    simp only [List.length_cons, List.replicate_succ, List.zipWith_cons_cons, ih]
    congr 1
    by_cases hd : d = 1 <;> simp [combineDim, hd]

theorem zipWith_combineDim_left_replicate (l : List Nat) :
    List.zipWith combineDim (List.replicate l.length 1) l = l := by
  induction l with
  | nil => rfl
  | cons d ds ih =>
    simp only [List.length_cons, List.replicate_succ, List.zipWith_cons_cons, ih]
    congr 1
    by_cases hd : d = 1 <;> simp [combineDim, hd]

theorem broadcastShapes_absorb {bc t : List Nat}
    (hsuf : bc.drop (bc.length - t.length) = t) (hlen : t.length ≤ bc.length) :
    broadcastShapes bc t = bc := by
  obtain ⟨pre, hpre⟩ : ∃ pre : List Nat, bc = pre ++ t :=
    ⟨bc.take (bc.length - t.length), by
      conv_lhs => rw [← List.take_append_drop (bc.length - t.length) bc]
      rw [hsuf]⟩
  have hmax : max bc.length t.length = bc.length := by omega
  have hpadbc : padShape (max bc.length t.length) bc = bc := by
    simp [padShape, hmax]
  have hpadt : padShape (max bc.length t.length) t
      = List.replicate (bc.length - t.length) 1 ++ t := by
    simp [padShape, hmax]
  simp only [broadcastShapes, hpadbc, hpadt]
  rw [hpre]
  have hcount : (pre ++ t).length - t.length = pre.length := by simp
  rw [hcount,
    List.zipWith_append _ _ _ _ _ (by rw [List.length_replicate]),
    zipWith_combineDim_self, zipWith_combineDim_right_replicate]

theorem broadcastShapes_absorb_left {bc s : List Nat}
    (hsuf : bc.drop (bc.length - s.length) = s) (hlen : s.length ≤ bc.length) :
    broadcastShapes s bc = bc := by
  obtain ⟨pre, hpre⟩ : ∃ pre : List Nat, bc = pre ++ s :=
    ⟨bc.take (bc.length - s.length), by
      conv_lhs => rw [← List.take_append_drop (bc.length - s.length) bc]
      rw [hsuf]⟩
  have hmax : max s.length bc.length = bc.length := by omega
  have hpadbc : padShape (max s.length bc.length) bc = bc := by
    simp [padShape, hmax]
  have hpads : padShape (max s.length bc.length) s
      = List.replicate (bc.length - s.length) 1 ++ s := by
    simp [padShape, hmax]
  simp only [broadcastShapes, hpadbc, hpads]
  rw [hpre]
  have hcount : (pre ++ s).length - s.length = pre.length := by simp
  rw [hcount,
    List.zipWith_append _ _ _ _ _ (by rw [List.length_replicate]),
    zipWith_combineDim_self]
  rw [zipWith_combineDim_left_replicate pre]

theorem removeIdxsAux_range (l : List Nat) (c i : Nat) :
    removeIdxsAux l (List.range c) i = l.drop (c - i) := by
  induction l generalizing i with
  | nil => simp [removeIdxsAux]
  | cons d ds ih =>
    simp only [removeIdxsAux, List.mem_range]
    by_cases h : i < c
    · rw [if_pos h, ih]
      have harith : c - i = (c - (i + 1)) + 1 := by omega
      rw [harith, List.drop_succ_cons]
    · rw [if_neg h, ih]
      have h1 : c - i = 0 := by omega
      have h2 : c - (i + 1) = 0 := by omega
      rw [h1, h2, List.drop_zero, List.drop_zero]

theorem fix_shape {d0 : NDArray} {xs sb bc : List Nat} {m k : Nat}
    (hd0 : d0.shape = bc ++ [m, k]) (hx : xs = sb ++ [m, k])
    (hsuf : bc.drop (bc.length - sb.length) = sb)
    (hlen : sb.length ≤ bc.length) :
    (if d0.shape ≠ xs
      then Summation.compute
        (.tuple (List.range (d0.shape.length - xs.length))) d0
      else d0).shape = xs := by
  by_cases heq : d0.shape = xs
  · rw [if_neg (not_not_intro heq)]
    exact heq
  · rw [if_pos heq]
    have hne : sb.length ≠ bc.length := by
      intro hcontra
      apply heq
      rw [hd0, hx]
      have h0 : bc.length - sb.length = 0 := by omega
      rw [h0, List.drop_zero] at hsuf
      rw [hsuf]
    have hc : d0.shape.length - xs.length = bc.length - sb.length := by
      rw [hd0, hx]
      simp only [List.length_append, List.length_cons, List.length_nil]
      omega
    rw [hc]
    show removeIdxs d0.shape (List.range (bc.length - sb.length)) = xs
    rw [removeIdxs, removeIdxsAux_range, Nat.sub_zero, hd0, hx,
      List.drop_append_of_le_length (by omega), hsuf]

/-- C6 counterexample: for `A` of shape `(1,2,3)` and `B` of shape
`(5,3,4)` — a valid batched matmul, broadcasting `A`'s batch dimension 1
to 5, with output shape `(5,2,4)` — `dA = out_grad @ Bᵗ` has shape
`(5,2,3)`.  The ranks agree, so the gradient's rank-difference fix sums
over an empty axis tuple and returns a gradient of shape `(5,2,3)`,
which does not match `A.shape`. -/
theorem C6_matmul_gradient_batch_mismatch :
    (MatMul.compute ⟨[1, 2, 3], fun _ => 0⟩ ⟨[5, 3, 4], fun _ => 0⟩).shape
        = [5, 2, 4]
      ∧ (MatMul.gradient ⟨[5, 2, 4], fun _ => 0⟩ ⟨[1, 2, 3], fun _ => 0⟩
          ⟨[5, 3, 4], fun _ => 0⟩).1.shape = [5, 2, 3]
      ∧ (MatMul.gradient ⟨[5, 2, 4], fun _ => 0⟩ ⟨[1, 2, 3], fun _ => 0⟩
          ⟨[5, 3, 4], fun _ => 0⟩).1.shape
          ≠ (⟨[1, 2, 3], fun _ => 0⟩ : NDArray).shape := by
  refine ⟨?_, ?_, ?_⟩ <;> decide

/-- C6 (amended): the gradient of `MatMul` is
`dA = out_grad @ Bᵗ`, `dB = Aᵗ @ out_grad` with any extra leading (batch)
dimensions sum-reduced away, and the returned gradient shapes match
`A.shape` and `B.shape` whenever batch broadcasting only prepends new
leading axes (each operand's batch dims are a right-aligned suffix of the
broadcast batch dims) — in particular for unbatched 2-D operands; for `A`
of shape `(2,3)` and `B` of shape `(3,4)`, `(A@B).shape = (2,4)`.  (As
stated for arbitrary broadcast batch dims the claim fails: a size-1 batch
dim broadcast against a larger one at the same rank gives a gradient that
keeps the broadcast size.) -/
theorem C6_matmul_gradient_shapes (a b og : NDArray) (sb tb : List Nat)
    (m k n : Nat) (ha : a.shape = sb ++ [m, k]) (hb : b.shape = tb ++ [k, n])
    (hsufS : (broadcastShapes sb tb).drop
        ((broadcastShapes sb tb).length - sb.length) = sb)
    (hsufT : (broadcastShapes sb tb).drop
        ((broadcastShapes sb tb).length - tb.length) = tb)
    (hog : og.shape = broadcastShapes sb tb ++ [m, n]) :
    (MatMul.compute a b).shape = broadcastShapes sb tb ++ [m, n]
      ∧ (MatMul.gradient og a b).1.shape = a.shape
      ∧ (MatMul.gradient og a b).2.shape = b.shape
      ∧ (MatMul.compute ⟨[2, 3], fun _ => 0⟩ ⟨[3, 4], fun _ => 0⟩).shape
          = [2, 4] := by
  have hslen : sb.length ≤ (broadcastShapes sb tb).length := by
    rw [broadcastShapes_length]
    omega
  have htlen : tb.length ≤ (broadcastShapes sb tb).length := by
    rw [broadcastShapes_length]
    omega
  refine ⟨?_, ?_, ?_, by decide⟩
  · show broadcastShapes (batchShape a.shape) (batchShape b.shape)
        ++ [rowsOf a.shape, colsOf b.shape] = _
    rw [ha, hb, batchShape_append, batchShape_append, rowsOf_append,
      colsOf_append]
  · have hbt : (Transpose.compute Option.none b).shape = tb ++ [n, k] :=
      transpose_default_shape hb
    have hd0 : (npMatmul og (Transpose.compute Option.none b)).shape
        = broadcastShapes sb tb ++ [m, k] := by
      show broadcastShapes (batchShape og.shape)
          (batchShape (Transpose.compute Option.none b).shape)
          ++ [rowsOf og.shape, colsOf (Transpose.compute Option.none b).shape]
        = _
      rw [hog, hbt, batchShape_append, batchShape_append, rowsOf_append,
        colsOf_append, broadcastShapes_absorb hsufT htlen]
    exact fix_shape hd0 ha hsufS hslen
  · have hat : (Transpose.compute Option.none a).shape = sb ++ [k, m] :=
      transpose_default_shape ha
    have hd0 : (npMatmul (Transpose.compute Option.none a) og).shape
        = broadcastShapes sb tb ++ [k, n] := by
      show broadcastShapes (batchShape (Transpose.compute Option.none a).shape)
          (batchShape og.shape)
          ++ [rowsOf (Transpose.compute Option.none a).shape, colsOf og.shape]
        = _
      rw [hog, hat, batchShape_append, batchShape_append, rowsOf_append,
        colsOf_append, broadcastShapes_absorb_left hsufS hslen]
    exact fix_shape hd0 hb hsufT htlen

/-- Witness for C6: the 2-D case `A : (2,3)`, `B : (3,4)`,
`out_grad : (2,4)`; the two gradients have shapes `(2,3)` and `(3,4)`. -/
theorem C6_matmul_gradient_witness :
    (MatMul.gradient ⟨[2, 4], fun _ => 0⟩ ⟨[2, 3], fun _ => 0⟩
        ⟨[3, 4], fun _ => 0⟩).1.shape = [2, 3]
      ∧ (MatMul.gradient ⟨[2, 4], fun _ => 0⟩ ⟨[2, 3], fun _ => 0⟩
          ⟨[3, 4], fun _ => 0⟩).2.shape = [3, 4] :=
  ⟨(C6_matmul_gradient_shapes ⟨[2, 3], fun _ => 0⟩ ⟨[3, 4], fun _ => 0⟩
      ⟨[2, 4], fun _ => 0⟩ [] [] 2 3 4 rfl rfl rfl rfl rfl).2.1,
   (C6_matmul_gradient_shapes ⟨[2, 3], fun _ => 0⟩ ⟨[3, 4], fun _ => 0⟩
      ⟨[2, 4], fun _ => 0⟩ [] [] 2 3 4 rfl rfl rfl rfl rfl).2.2.1⟩

end Needle
